import Mathlib

/-
Verification of the SuperBit repository (SimHash / Super-Bit LSH engines).

Shallow embedding conventions:
* An L-bit signature value (Rust `S : SimHashBits`, i.e. u64 / u128 / BitArray)
  is modelled as a `Nat`; bit i of the signature is `Nat.testBit s i`.
  All signature-producing code only ever sets bits below L.
* A hasher (`SimHasher`, an external collaborator whose source is not part of
  the repository) is modelled as an arbitrary function `α → Nat` from items to
  hash values.
* Rust `f32` weights and accumulators are modelled as `ℚ`: the claims proved
  about the weighted paths (empty input, zero-weight skipping, weight-1
  delegation, dependence only on low hash bits) are structural and do not rest
  on rounding behaviour of the accumulation.
* Rust `u64` arithmetic in the Super-Bit PRNG is modelled as `Nat` with
  explicit reduction modulo 2 ^ 64 where the source wraps.
-/

namespace SuperBitRepo

/-- The Rust source ends every signature computation with the same loop:
`for i in 0..L { if <condition i> { result |= S::one() << i; } }` starting from
`S::zero()`. `assemble L P` is that loop over predicate `P`. -/
def assemble (L : Nat) (P : Nat → Bool) : Nat :=
  (List.range L).foldl (fun res i => if P i then res ||| (1 <<< i) else res) 0

namespace SimHash

/-- Inner loop of `SimHash::create_signature`
(src/src/simhash/sim_hash.rs:34-43): walk the counter array once; at each
counter, vote +1 if the current low hash bit is 0 and -1 if it is 1, then
shift the hash right by one. The counter array has length L, so exactly L
hash bits are consumed. -/
def stepCounts : List Int → Nat → List Int
  | [], _ => []
  | c :: cs, hash => (if hash % 2 = 0 then c + 1 else c - 1) :: stepCounts cs (hash / 2)

/-- Counter state of `SimHash::create_signature` after the item loop
(src/src/simhash/sim_hash.rs:32-43): fold `stepCounts` over the hashed items,
starting from `[0i64; L]`. -/
def signatureCounts (hasher : α → Nat) (L : Nat) (items : List α) : List Int :=
  items.foldl (fun counts item => stepCounts counts (hasher item)) (List.replicate L 0)

/-- `SimHash::create_signature` (src/src/simhash/sim_hash.rs:27-52):
accumulate the per-bit ±1 votes over all hashed items, then set output bit i
iff `counts[i] > 0`. -/
def create_signature (hasher : α → Nat) (L : Nat) (items : List α) : Nat :=
  assemble L (fun i => decide (0 < (signatureCounts hasher L items).getD i 0))

/-- The per-bit ±1 vote an item with hash value `hash` casts at bit `i`:
-1 when the hash bit is set, +1 when it is clear. -/
def bitContrib (hash i : Nat) : Int :=
  if hash.testBit i then -1 else 1

/-- Inner loop of `SimHash::create_signature_weighted`
(src/src/simhash/sim_hash.rs:64-76): same walk as `stepCounts`, voting
`+w` when the current low hash bit is 0 and `-w` when it is 1. -/
def stepCountsW (w : ℚ) : List ℚ → Nat → List ℚ
  | [], _ => []
  | c :: cs, hash => (if hash % 2 = 0 then c + w else c - w) :: stepCountsW w cs (hash / 2)

/-- Counter state of `SimHash::create_signature_weighted` after the item loop
(src/src/simhash/sim_hash.rs:62-76), starting from `[0f32; L]`
(accumulator modelled over `ℚ`). -/
def signatureCountsW (hasher : α → Nat) (L : Nat) (items : List (α × ℚ)) : List ℚ :=
  items.foldl (fun counts p => stepCountsW p.2 counts (hasher p.1)) (List.replicate L 0)

/-- `SimHash::create_signature_weighted` (src/src/simhash/sim_hash.rs:56-85):
accumulate the per-bit ±w votes over all hashed items, then set output bit i
iff `counts[i] > 0.0`. -/
def create_signature_weighted (hasher : α → Nat) (L : Nat) (items : List (α × ℚ)) : Nat :=
  assemble L (fun i => decide (0 < (signatureCountsW hasher L items).getD i 0))

/-- `SimHash::create_centroid` (src/src/simhash/sim_hash.rs:87-108): count,
for each bit position i, how many input signatures have bit i set
(`signature >> i & 1 == 1`), count the total number `len` of signatures, and
set output bit i iff `counts[i] > len / 2` (integer division). -/
def create_centroid (L : Nat) (sigs : List Nat) : Nat :=
  assemble L (fun i => decide (sigs.countP (fun s => s.testBit i) > sigs.length / 2))

/-- The per-bit ±w vote a weighted item with hash value `hash` casts at bit
`i`: -w when the hash bit is set, +w when it is clear. -/
def bitContribW (hash i : Nat) (w : ℚ) : ℚ :=
  if hash.testBit i then -w else w

end SimHash

/-- The wrap-around modulus 2 ^ 64 of Rust `u64` arithmetic. -/
def UINT64 : Nat := 2 ^ 64

/-- The Super-Bit engine (src/src/simhash/superbit.rs:9-20), after
construction: the hasher, the block size `r`, the block count `m = L / r`, the
seed, and the precomputed r×r row-major orthonormal blocks `q_blocks`. The
block entries are 32-bit floats produced by hashed Box–Muller sampling and
Gram–Schmidt (`make_orthonormal_block`); that construction is transcendental
floating-point code, so the entries are kept abstract here as a rational-valued
function (block, row, col) ↦ entry — the claims proved below hold for every
choice of block entries. -/
structure SuperBitSimHash (α : Type) where
  hasher : α → Nat
  r : Nat
  m : Nat
  seed : Nat
  q_blocks : Nat → Nat → Nat → ℚ

namespace SuperBitSimHash

/-- Validation performed by `SuperBitSimHash::new`
(src/src/simhash/superbit.rs:27-45): `assert!(r > 0 && L % r == 0)`, then
`m = L / r`. Modelled as an `Option` returning the block count `m`: `none` is
the fatal configuration error (the Rust assert), raised before anything else
happens in the constructor. The orthonormal blocks built afterwards are
irrelevant to the validation behaviour. -/
def new (L r : Nat) : Option Nat :=
  if 0 < r ∧ L % r = 0 then some (L / r) else none

/-- `SuperBitSimHash::splitmix64` (src/src/simhash/superbit.rs:162-168),
the SplitMix64 avalanche step, on `Nat` reduced mod 2 ^ 64. -/
def splitmix64 (x0 : Nat) : Nat :=
  let x := (x0 + 0x9E3779B97F4A7C15) % UINT64
  let z := ((x ^^^ (x >>> 30)) * 0xBF58476D1CE4E5B9) % UINT64
  let z2 := ((z ^^^ (z >>> 27)) * 0x94D049BB133111EB) % UINT64
  z2 ^^^ (z2 >>> 31)

/-- The `{+1,-1}` sign vector `g` of length n filled by repeated `splitmix64`
steps from state `s` (src/src/simhash/superbit.rs:131-134): each step first
advances the state, then emits +1 if the top bit of the new state is 0 and -1
otherwise. -/
def signVector : Nat → Nat → List ℚ
  | 0, _ => []
  | n + 1, s =>
    let s2 := splitmix64 s
    (if s2 >>> 63 = 0 then (1 : ℚ) else -1) :: signVector n s2

/-- The per-(item, block) PRNG seed (src/src/simhash/superbit.rs:125-128):
`seed ^ base ^ ((b as u64) << 32) ^ 0x9E37_79B9_7F4A_7C15`. -/
def blockSeed (e : SuperBitSimHash α) (base b : Nat) : Nat :=
  ((e.seed ^^^ base) ^^^ ((b <<< 32) % UINT64)) ^^^ 0x9E3779B97F4A7C15

/-- One row of the matrix-vector product `Q_b * g`
(src/src/simhash/superbit.rs:138-143): the dot product of row `row` of block
`b` with the sign vector `g`, accumulated over columns 0..r. -/
def rowDot (e : SuperBitSimHash α) (b row : Nat) (g : List ℚ) : ℚ :=
  (List.range e.r).foldl (fun acc col => acc + e.q_blocks b row col * g.getD col 0) 0

/-- The per-item accumulation of `SuperBitSimHash::create_signature_weighted`
(src/src/simhash/superbit.rs:118-146): for each block b, build the sign
vector g from the per-(item, block) seed and add `w * (Q_b * g)[row]` into
counter `b * r + row` for each row. -/
def accumItem (e : SuperBitSimHash α) (counts : Nat → ℚ) (base : Nat) (w : ℚ) : Nat → ℚ :=
  (List.range e.m).foldl (fun cnts b =>
    let g := signVector e.r (e.blockSeed base b)
    (List.range e.r).foldl (fun cnts2 row => fun i =>
      if i = b * e.r + row then cnts2 i + w * e.rowDot b row g else cnts2 i) cnts) counts

/-- Counter state of `SuperBitSimHash::create_signature_weighted` after the
item loop (src/src/simhash/superbit.rs:111-146), starting from `vec![0f32; L]`
(modelled as the everywhere-zero counter function): items with weight 0 are
skipped (`if w == 0.0 { continue; }`), every other item is hashed once to a
64-bit base value and accumulated block by block. -/
def itemCounts (e : SuperBitSimHash α) (items : List (α × ℚ)) : Nat → ℚ :=
  items.foldl (fun counts p =>
    if p.2 = 0 then counts
    else e.accumItem counts (e.hasher p.1) p.2) (fun _ => 0)

/-- `SuperBitSimHash::create_signature_weighted`
(src/src/simhash/superbit.rs:107-159): accumulate all items' weighted block
projections, then set output bit i iff `counts[i] > 0.0`. -/
def create_signature_weighted (e : SuperBitSimHash α) (L : Nat)
    (items : List (α × ℚ)) : Nat :=
  assemble L (fun i => decide (0 < e.itemCounts items i))

/-- `SuperBitSimHash::create_signature` (src/src/simhash/superbit.rs:97-103):
delegates to the weighted form with every weight fixed at 1.0. -/
def create_signature (e : SuperBitSimHash α) (L : Nat) (items : List α) : Nat :=
  e.create_signature_weighted L (items.map (fun u => (u, (1 : ℚ))))

end SuperBitSimHash

/- ------------------------------------------------------------------ -/
/- Supporting lemmas.                                                  -/
/- ------------------------------------------------------------------ -/

theorem assemble_foldl_testBit (P : Nat → Bool) (l : List Nat) (acc j : Nat) :
    ((l.foldl (fun res i => if P i then res ||| (1 <<< i) else res) acc).testBit j = true) ↔
      (acc.testBit j = true ∨ (j ∈ l ∧ P j = true)) := by
  induction l generalizing acc with
  | nil => simp
  | cons i l ih =>
    simp only [List.foldl_cons, ih, List.mem_cons]
    by_cases hP : P i
    · simp only [hP, if_pos]
      rw [Nat.testBit_or, Nat.one_shiftLeft]
      constructor
      · rintro (h | h)
        · rcases Bool.or_eq_true_iff.mp h with h' | h'
          · exact Or.inl h'
          · by_cases hji : i = j
            · subst hji
              exact Or.inr ⟨Or.inl rfl, hP⟩
            · rw [Nat.testBit_two_pow_of_ne hji] at h'
              exact absurd h' (by simp)
        · exact Or.inr ⟨Or.inr h.1, h.2⟩
      · rintro (h | ⟨(h | h), hPj⟩)
        · exact Or.inl (Bool.or_eq_true_iff.mpr (Or.inl h))
        · subst h
          exact Or.inl (Bool.or_eq_true_iff.mpr (Or.inr Nat.testBit_two_pow_self))
        · exact Or.inr ⟨h, hPj⟩
    · simp only [hP, if_neg, Bool.false_eq_true]
      constructor
      · rintro (h | h)
        · exact Or.inl h
        · exact Or.inr ⟨Or.inr h.1, h.2⟩
      · rintro (h | ⟨(h | h), hPj⟩)
        · exact Or.inl h
        · subst h
          exact absurd hPj (by simp [hP])
        · exact Or.inr ⟨h, hPj⟩

theorem assemble_testBit (L : Nat) (P : Nat → Bool) (j : Nat) :
    ((assemble L P).testBit j = true) ↔ (j < L ∧ P j = true) := by
  unfold assemble
  rw [assemble_foldl_testBit]
  simp [List.mem_range]

theorem assemble_eq_zero (L : Nat) (P : Nat → Bool) (h : ∀ i, i < L → P i = false) :
    assemble L P = 0 := by
  apply Nat.eq_of_testBit_eq
  intro j
  rw [Nat.zero_testBit]
  by_cases hb : (assemble L P).testBit j = true
  · rcases (assemble_testBit L P j).mp hb with ⟨hj, hPj⟩
    rw [h j hj] at hPj
    exact absurd hPj (by simp)
  · simpa using hb

theorem assemble_congr (L : Nat) (P Q : Nat → Bool) (h : ∀ i, i < L → P i = Q i) :
    assemble L P = assemble L Q := by
  apply Nat.eq_of_testBit_eq
  intro j
  by_cases hj : j < L
  · rcases hQ : Q j with _ | _
    · rcases hP : (assemble L P).testBit j with _ | _
      · rcases hQ' : (assemble L Q).testBit j with _ | _
        · rfl
        · rcases (assemble_testBit L Q j).mp hQ' with ⟨_, hc⟩
          rw [hQ] at hc
          exact absurd hc (by simp)
      · rcases (assemble_testBit L P j).mp hP with ⟨_, hc⟩
        rw [h j hj, hQ] at hc
        exact absurd hc (by simp)
    · rw [(assemble_testBit L P j).mpr ⟨hj, (h j hj).trans hQ⟩,
        (assemble_testBit L Q j).mpr ⟨hj, hQ⟩]
  · rcases hP : (assemble L P).testBit j with _ | _
    · rcases hQ' : (assemble L Q).testBit j with _ | _
      · rfl
      · exact absurd ((assemble_testBit L Q j).mp hQ').1 hj
    · exact absurd ((assemble_testBit L P j).mp hP).1 hj

theorem assemble_testBit_eq (L : Nat) (P : Nat → Bool) (j : Nat) :
    (assemble L P).testBit j = (decide (j < L) && P j) := by
  by_cases hj : j < L
  · rcases hP : P j with _ | _
    · rw [decide_eq_true hj, Bool.true_and]
      have h : ¬ (assemble L P).testBit j = true := fun hb =>
        absurd ((assemble_testBit L P j).mp hb).2 (by simp [hP])
      simpa using h
    · rw [decide_eq_true hj, Bool.true_and]
      exact (assemble_testBit L P j).mpr ⟨hj, hP⟩
  · rw [decide_eq_false hj, Bool.false_and]
    have h : ¬ (assemble L P).testBit j = true := fun hb =>
      absurd ((assemble_testBit L P j).mp hb).1 hj
    simpa using h

namespace SimHash

theorem stepCounts_length (cs : List Int) (hash : Nat) :
    (stepCounts cs hash).length = cs.length := by
  induction cs generalizing hash with
  | nil => rfl
  | cons c cs ih => simp [stepCounts, ih]

theorem stepCounts_getD (cs : List Int) (hash i : Nat) :
    (stepCounts cs hash).getD i 0 =
      cs.getD i 0 + (if i < cs.length then (if hash.testBit i then -1 else 1) else 0) := by
  induction cs generalizing hash i with
  | nil => simp [stepCounts]
  | cons c cs ih =>
    cases i with
    | zero =>
      simp only [stepCounts, List.getD_cons_zero, List.length_cons, Nat.zero_lt_succ, if_pos,
        Nat.testBit_zero]
      rcases Nat.mod_two_eq_zero_or_one hash with h | h
      · simp [h]
      · simp [h, sub_eq_add_neg]
    | succ i =>
      simp only [stepCounts, List.getD_cons_succ, List.length_cons, Nat.succ_lt_succ_iff,
        Nat.testBit_add_one]
      exact ih (hash / 2) i

theorem foldl_stepCounts_length (hasher : α → Nat) (items : List α) (cs : List Int) :
    (items.foldl (fun c it => stepCounts c (hasher it)) cs).length = cs.length := by
  induction items generalizing cs with
  | nil => rfl
  | cons it items ih =>
    rw [List.foldl_cons, ih, stepCounts_length]

theorem foldl_stepCounts_getD (hasher : α → Nat) (items : List α) (cs : List Int) (i : Nat)
    (hi : i < cs.length) :
    (items.foldl (fun c it => stepCounts c (hasher it)) cs).getD i 0 =
      cs.getD i 0 + (items.map (fun it => bitContrib (hasher it) i)).sum := by
  induction items generalizing cs with
  | nil => simp
  | cons it items ih =>
    rw [List.foldl_cons, ih _ (by rw [stepCounts_length]; exact hi), stepCounts_getD]
    simp only [if_pos hi, List.map_cons, List.sum_cons, bitContrib]
    ring

theorem signatureCounts_getD (hasher : α → Nat) (L : Nat) (items : List α) (i : Nat)
    (hi : i < L) :
    (signatureCounts hasher L items).getD i 0 =
      (items.map (fun it => bitContrib (hasher it) i)).sum := by
  unfold signatureCounts
  rw [foldl_stepCounts_getD hasher items _ i (by simpa using hi)]
  simp

theorem contrib_sum_eq_countP_sub (hasher : α → Nat) (items : List α) (i : Nat) :
    (items.map (fun it => bitContrib (hasher it) i)).sum =
      (items.countP (fun it => !(hasher it).testBit i) : Int) -
        (items.countP (fun it => (hasher it).testBit i) : Int) := by
  induction items with
  | nil => simp
  | cons it items ih =>
    simp only [List.map_cons, List.sum_cons, List.countP_cons, ih]
    rcases h : (hasher it).testBit i with _ | _
    · simp only [bitContrib, h, Bool.not_false, if_pos, if_neg, Bool.false_eq_true, ite_true,
        ite_false]
      push_cast
      ring
    · simp only [bitContrib, h, Bool.not_true, Bool.false_eq_true, ite_true, ite_false]
      push_cast
      ring

theorem stepCountsW_length (w : ℚ) (cs : List ℚ) (hash : Nat) :
    (stepCountsW w cs hash).length = cs.length := by
  induction cs generalizing hash with
  | nil => rfl
  | cons c cs ih => simp [stepCountsW, ih]

theorem stepCountsW_zero (cs : List ℚ) (hash : Nat) :
    stepCountsW 0 cs hash = cs := by
  induction cs generalizing hash with
  | nil => rfl
  | cons c cs ih =>
    simp only [stepCountsW, add_zero, sub_zero, ite_self]
    rw [ih]

theorem stepCountsW_getD (w : ℚ) (cs : List ℚ) (hash i : Nat) :
    (stepCountsW w cs hash).getD i 0 =
      cs.getD i 0 + (if i < cs.length then (if hash.testBit i then -w else w) else 0) := by
  induction cs generalizing hash i with
  | nil => simp [stepCountsW]
  | cons c cs ih =>
    cases i with
    | zero =>
      simp only [stepCountsW, List.getD_cons_zero, List.length_cons, Nat.zero_lt_succ, if_pos,
        Nat.testBit_zero]
      rcases Nat.mod_two_eq_zero_or_one hash with h | h
      · simp [h]
      · simp [h, sub_eq_add_neg]
    | succ i =>
      simp only [stepCountsW, List.getD_cons_succ, List.length_cons, Nat.succ_lt_succ_iff,
        Nat.testBit_add_one]
      exact ih (hash / 2) i

theorem foldl_stepCountsW_length (hasher : α → Nat) (items : List (α × ℚ)) (cs : List ℚ) :
    (items.foldl (fun c p => stepCountsW p.2 c (hasher p.1)) cs).length = cs.length := by
  induction items generalizing cs with
  | nil => rfl
  | cons p items ih =>
    rw [List.foldl_cons, ih, stepCountsW_length]

theorem foldl_stepCountsW_getD (hasher : α → Nat) (items : List (α × ℚ)) (cs : List ℚ)
    (i : Nat) (hi : i < cs.length) :
    (items.foldl (fun c p => stepCountsW p.2 c (hasher p.1)) cs).getD i 0 =
      cs.getD i 0 + (items.map (fun p => bitContribW (hasher p.1) i p.2)).sum := by
  induction items generalizing cs with
  | nil => simp
  | cons p items ih =>
    rw [List.foldl_cons, ih _ (by rw [stepCountsW_length]; exact hi), stepCountsW_getD]
    simp only [if_pos hi, List.map_cons, List.sum_cons, bitContribW]
    ring

theorem signatureCountsW_getD (hasher : α → Nat) (L : Nat) (items : List (α × ℚ)) (i : Nat)
    (hi : i < L) :
    (signatureCountsW hasher L items).getD i 0 =
      (items.map (fun p => bitContribW (hasher p.1) i p.2)).sum := by
  unfold signatureCountsW
  rw [foldl_stepCountsW_getD hasher items _ i (by simpa using hi)]
  simp

theorem foldl_stepCountsW_filter (hasher : α → Nat) (items : List (α × ℚ)) (cs : List ℚ) :
    (items.filter (fun p => decide (p.2 ≠ 0))).foldl
        (fun c p => stepCountsW p.2 c (hasher p.1)) cs =
      items.foldl (fun c p => stepCountsW p.2 c (hasher p.1)) cs := by
  induction items generalizing cs with
  | nil => rfl
  | cons p items ih =>
    rw [List.filter_cons]
    by_cases hp : p.2 = 0
    · rw [if_neg (by simp [hp]), List.foldl_cons, hp, stepCountsW_zero]
      exact ih cs
    · rw [if_pos (by simp [hp]), List.foldl_cons, List.foldl_cons]
      exact ih _

theorem signatureCountsW_filter (hasher : α → Nat) (L : Nat) (items : List (α × ℚ)) :
    signatureCountsW hasher L (items.filter (fun p => decide (p.2 ≠ 0))) =
      signatureCountsW hasher L items := by
  unfold signatureCountsW
  exact foldl_stepCountsW_filter hasher items _

end SimHash

namespace SuperBitSimHash

theorem itemCounts_nil (e : SuperBitSimHash α) : e.itemCounts [] = fun _ => 0 := rfl

theorem weighted_nil_eq_zero (e : SuperBitSimHash α) (L : Nat) :
    e.create_signature_weighted L [] = 0 := by
  unfold create_signature_weighted
  apply assemble_eq_zero
  intro i _
  simp [itemCounts]

theorem itemCounts_filter (e : SuperBitSimHash α) (items : List (α × ℚ)) :
    e.itemCounts (items.filter (fun p => decide (p.2 ≠ 0))) = e.itemCounts items := by
  unfold itemCounts
  generalize (fun _ : Nat => (0 : ℚ)) = init
  induction items generalizing init with
  | nil => rfl
  | cons p items ih =>
    rw [List.filter_cons]
    by_cases hp : p.2 = 0
    · rw [if_neg (by simp [hp]), List.foldl_cons, if_pos hp]
      exact ih init
    · rw [if_pos (by simp [hp]), List.foldl_cons, List.foldl_cons]
      exact ih _

end SuperBitSimHash

/- ------------------------------------------------------------------ -/
/- Claims.                                                             -/
/- ------------------------------------------------------------------ -/

/-- C1: for every item stream and every bit position `i < L`, SimHash
`create_signature` produces output bit i = 1 iff the counter for position i is
strictly positive, where the counter is the number of items whose hash has bit
i clear minus the number of items whose hash has bit i set; a counter of
exactly 0 yields bit 0. -/
theorem simhash_signature_bit_iff_counter_pos (hasher : α → Nat) (L : Nat) (items : List α)
    (i : Nat) (hi : i < L) :
    ((SimHash.create_signature hasher L items).testBit i = true) ↔
      ((items.countP (fun it => !(hasher it).testBit i) : Int) -
        (items.countP (fun it => (hasher it).testBit i) : Int) > 0) := by
  unfold SimHash.create_signature
  rw [assemble_testBit]
  rw [SimHash.signatureCounts_getD hasher L items i hi,
    SimHash.contrib_sum_eq_countP_sub]
  simp [hi, gt_iff_lt]

/-- Witness for `C1` at L = 4, items hashing to [0b0101, 0b0001, 0b0100]:
at bit 1 all three hashes have the bit clear, the counter is 3 > 0, and bit 1
of the signature is set. -/
theorem simhash_signature_bit_iff_counter_pos_witness :
    (1 : Nat) < 4 ∧
      (SimHash.create_signature (fun n : Nat => n) 4 [5, 1, 4]).testBit 1 = true :=
  ⟨by decide,
    (simhash_signature_bit_iff_counter_pos (fun n : Nat => n) 4 [5, 1, 4] 1 (by decide)).mpr
      (by decide)⟩

/-- C2: Super-Bit engine construction fails with the fatal configuration
error iff `r = 0` or `L % r ≠ 0`, and the failure happens at construction
itself (the constructor is modelled as a total `Option`-valued function whose
`none` is the construction-time assert); every success returns the untruncated
block count m with `m * r = L` exactly. -/
theorem superbit_new_fails_iff (L r : Nat) :
    (SuperBitSimHash.new L r = none ↔ (r = 0 ∨ L % r ≠ 0)) ∧
    (∀ m, SuperBitSimHash.new L r = some m → 0 < r ∧ m * r = L) := by
  constructor
  · unfold SuperBitSimHash.new
    by_cases h : 0 < r ∧ L % r = 0
    · rw [if_pos h]
      simp only [reduceCtorEq, false_iff]
      omega
    · rw [if_neg h]
      simp only [true_iff]
      omega
  · intro m hm
    unfold SuperBitSimHash.new at hm
    by_cases h : 0 < r ∧ L % r = 0
    · rw [if_pos h] at hm
      have hm' : L / r = m := Option.some.inj hm
      refine ⟨h.1, ?_⟩
      rw [← hm']
      exact Nat.div_mul_cancel (Nat.dvd_of_mod_eq_zero h.2)
    · rw [if_neg h] at hm
      exact absurd hm (by simp)

/-- Witness for `C2`: at L = 64, r = 8 construction succeeds with m = 8 and
m * r recovers L exactly. -/
theorem superbit_new_fails_iff_witness : 0 < 8 ∧ 8 * 8 = 64 :=
  (superbit_new_fails_iff 64 8).2 8 (by decide)

/-- C3: for every batch of n input signatures and every bit position
`i < L`, `create_centroid` sets output bit i = 1 iff the number of input
signatures having bit i set strictly exceeds `floor (n / 2)`; in particular a
count of exactly `n / 2` (the tie for even n) yields output bit 0. -/
theorem centroid_bit_iff_strict_majority (L : Nat) (sigs : List Nat) (i : Nat)
    (hi : i < L) :
    (((SimHash.create_centroid L sigs).testBit i = true) ↔
      sigs.countP (fun s => s.testBit i) > sigs.length / 2) ∧
    (sigs.countP (fun s => s.testBit i) = sigs.length / 2 →
      (SimHash.create_centroid L sigs).testBit i = false) := by
  constructor
  · unfold SimHash.create_centroid
    rw [assemble_testBit]
    simp [hi]
  · intro htie
    unfold SimHash.create_centroid
    rw [assemble_testBit_eq, htie]
    simp

/-- Witness for `C3` at L = 4, signatures [0b11, 0b01]: at bit 1 exactly one
of the two signatures has the bit set (a tie, n / 2 = 1), so the centroid bit
is 0. -/
theorem centroid_bit_iff_strict_majority_witness :
    (SimHash.create_centroid 4 [3, 1]).testBit 1 = false :=
  (centroid_bit_iff_strict_majority 4 [3, 1] 1 (by decide)).2 (by decide)

/-- C4: an empty input iteration yields the all-zero signature for every
signature-producing operation: SimHash `create_signature` and
`create_signature_weighted`, Super-Bit `create_signature` and
`create_signature_weighted`, and `create_centroid` over an empty batch. -/
theorem empty_input_all_zero (hasher : α → Nat) (hw : β → Nat) (L : Nat)
    (e : SuperBitSimHash γ) :
    SimHash.create_signature hasher L [] = 0 ∧
    SimHash.create_signature_weighted hw L ([] : List (β × ℚ)) = 0 ∧
    e.create_signature L ([] : List γ) = 0 ∧
    e.create_signature_weighted L ([] : List (γ × ℚ)) = 0 ∧
    SimHash.create_centroid L ([] : List Nat) = 0 := by
  refine ⟨?_, ?_, ?_, ?_, ?_⟩
  · unfold SimHash.create_signature
    apply assemble_eq_zero
    intro i hi
    rw [SimHash.signatureCounts_getD _ _ _ _ hi]
    simp
  · unfold SimHash.create_signature_weighted
    apply assemble_eq_zero
    intro i hi
    rw [SimHash.signatureCountsW_getD _ _ _ _ hi]
    simp
  · unfold SuperBitSimHash.create_signature
    rw [List.map_nil]
    exact e.weighted_nil_eq_zero L
  · exact e.weighted_nil_eq_zero L
  · unfold SimHash.create_centroid
    apply assemble_eq_zero
    intro i _
    simp

/-- C5: zero-weight items contribute nothing: for both the SimHash engine
and the Super-Bit engine, `create_signature_weighted` over any weighted item
stream equals the same computation over the stream with all zero-weight items
removed — hence inserting extra zero-weight items at any positions leaves the
output unchanged. -/
theorem zero_weight_items_no_effect (hasher : α → Nat) (L : Nat) (items : List (α × ℚ))
    (e : SuperBitSimHash β) (sbItems : List (β × ℚ)) :
    SimHash.create_signature_weighted hasher L items =
      SimHash.create_signature_weighted hasher L
        (items.filter (fun p => decide (p.2 ≠ 0))) ∧
    e.create_signature_weighted L sbItems =
      e.create_signature_weighted L (sbItems.filter (fun p => decide (p.2 ≠ 0))) := by
  constructor
  · unfold SimHash.create_signature_weighted
    rw [SimHash.signatureCountsW_filter]
  · unfold SuperBitSimHash.create_signature_weighted
    rw [SuperBitSimHash.itemCounts_filter]

/-- C6: the Super-Bit engine's unweighted `create_signature` returns exactly
the signature of `create_signature_weighted` applied to the same items each
paired with weight 1 — the source delegates precisely this way. -/
theorem superbit_unweighted_is_weight_one (e : SuperBitSimHash α) (L : Nat)
    (items : List α) :
    e.create_signature L items =
      e.create_signature_weighted L (items.map (fun u => (u, (1 : ℚ)))) := rfl

/-- C7: `create_centroid` applied to a singleton batch containing only the
signature s returns s unchanged. -/
theorem centroid_singleton_id (L : Nat) (s : Nat) (hs : s < 2 ^ L) :
    SimHash.create_centroid L [s] = s := by
  apply Nat.eq_of_testBit_eq
  intro j
  unfold SimHash.create_centroid
  rw [assemble_testBit_eq]
  by_cases hj : j < L
  · rw [decide_eq_true hj, Bool.true_and]
    rcases hb : s.testBit j with _ | _
    · simp [List.countP_cons, hb]
    · simp [List.countP_cons, hb]
  · rw [decide_eq_false hj, Bool.false_and]
    symm
    exact Nat.testBit_lt_two_pow
      (lt_of_lt_of_le hs (Nat.pow_le_pow_right (by norm_num) (le_of_not_lt hj)))

/-- Witness for `C7`: the centroid of the singleton batch [0b0101] at L = 4
is 0b0101 itself. -/
theorem centroid_singleton_id_witness :
    (5 : Nat) < 2 ^ 4 ∧ SimHash.create_centroid 4 [5] = 5 :=
  ⟨by decide, centroid_singleton_id 4 5 (by decide)⟩

/-- C8: unweighted SimHash `create_signature` is order-invariant: any
permutation of the item list produces the same signature, because each
per-bit counter is a commutative sum of the items' ±1 votes. -/
theorem simhash_signature_perm_invariant (hasher : α → Nat) (L : Nat)
    (l1 l2 : List α) (h : l1.Perm l2) :
    SimHash.create_signature hasher L l1 = SimHash.create_signature hasher L l2 := by
  unfold SimHash.create_signature
  apply assemble_congr
  intro i hi
  rw [SimHash.signatureCounts_getD _ _ _ _ hi, SimHash.signatureCounts_getD _ _ _ _ hi,
    (h.map (fun it => SimHash.bitContrib (hasher it) i)).sum_eq]

/-- Witness for `C8`: reversing the item list [1, 2, 3] leaves the L = 4
signature unchanged. -/
theorem simhash_signature_perm_invariant_witness :
    SimHash.create_signature (fun n : Nat => n) 4 [1, 2, 3] =
      SimHash.create_signature (fun n : Nat => n) 4 [3, 2, 1] :=
  simhash_signature_perm_invariant (fun n : Nat => n) 4 [1, 2, 3] [3, 2, 1]
    (List.reverse_perm [1, 2, 3]).symm

/-- C10: SimHash signatures depend only on the low L bits of each item's
hash: two hashers that agree modulo 2 ^ L on every item produce bit-identical
signatures, for both `create_signature` and `create_signature_weighted`. -/
theorem simhash_signature_low_bits_only (h1 h2 : α → Nat) (L : Nat)
    (items : List α) (witems : List (α × ℚ))
    (hcong : ∀ x, h1 x % 2 ^ L = h2 x % 2 ^ L) :
    SimHash.create_signature h1 L items = SimHash.create_signature h2 L items ∧
    SimHash.create_signature_weighted h1 L witems =
      SimHash.create_signature_weighted h2 L witems := by
  have hbit : ∀ x i, i < L → (h1 x).testBit i = (h2 x).testBit i := by
    intro x i hi
    have h := congrArg (fun n => n.testBit i) (hcong x)
    simpa [Nat.testBit_mod_two_pow, hi] using h
  constructor
  · unfold SimHash.create_signature
    apply assemble_congr
    intro i hi
    rw [SimHash.signatureCounts_getD _ _ _ _ hi, SimHash.signatureCounts_getD _ _ _ _ hi]
    have hmap : List.map (fun it => SimHash.bitContrib (h1 it) i) items =
        List.map (fun it => SimHash.bitContrib (h2 it) i) items :=
      List.map_congr_left (fun it _ => by unfold SimHash.bitContrib; rw [hbit it i hi])
    rw [hmap]
  · unfold SimHash.create_signature_weighted
    apply assemble_congr
    intro i hi
    rw [SimHash.signatureCountsW_getD _ _ _ _ hi, SimHash.signatureCountsW_getD _ _ _ _ hi]
    have hmap : List.map (fun p => SimHash.bitContribW (h1 p.1) i p.2) witems =
        List.map (fun p => SimHash.bitContribW (h2 p.1) i p.2) witems :=
      List.map_congr_left (fun p _ => by unfold SimHash.bitContribW; rw [hbit p.1 i hi])
    rw [hmap]

/-- Witness for `C10`: at L = 4, the identity hasher and the hasher that adds
16 (= 2 ^ 4, altering only bits ≥ L) agree modulo 2 ^ 4, so they produce the
same signatures on items [5, 1] and weighted items [(3, 2)]. -/
theorem simhash_signature_low_bits_only_witness :
    SimHash.create_signature (fun n : Nat => n) 4 [5, 1] =
      SimHash.create_signature (fun n : Nat => n + 16) 4 [5, 1] ∧
    SimHash.create_signature_weighted (fun n : Nat => n) 4 [((3 : Nat), (2 : ℚ))] =
      SimHash.create_signature_weighted (fun n : Nat => n + 16) 4 [((3 : Nat), (2 : ℚ))] :=
  simhash_signature_low_bits_only (fun n : Nat => n) (fun n : Nat => n + 16) 4 [5, 1]
    [((3 : Nat), (2 : ℚ))] (fun x => by simp [Nat.add_mod_right])

end SuperBitRepo
